import Mathlib

/-!
Shallow embedding of the spread-calculation pipeline of InTheGrid
(src/src/calculator.py) and proofs about it.

Modelling conventions:
* Python `Decimal` prices become exact rationals `ℚ` (the code only adds,
  subtracts and compares prices, all exact in `Decimal`).
* `datetime` timestamps become `ℕ` (only ordering and `max` are used).
* A Python `dict` becomes an association list whose keys are pairwise
  distinct; `dict.get` / `dict[k]` become `dictGet`.
* A `PriceSnapshot` (`dict[str, (Decimal, datetime)]`) becomes
  `List (String × ℚ × ℕ)` with `Nodup` keys where a claim needs it.
-/

namespace InTheGrid

/-- One row of the `spreads` table / one `Spread` pydantic model
(src/src/models.py). -/
structure Spread where
  market_pair : String
  timestamp : ℕ
  spread : ℚ
  net_opportunity : ℚ
  low_market : String
  high_market : String
  low_price : ℚ
  high_price : ℚ
deriving DecidableEq

/-- Python `dict.get` modelled on an association list:
first matching key wins (keys are distinct in an actual dict). -/
def dictGet {α : Type} : List (String × α) → String → Option α
  | [], _ => none
  | (k, v) :: rest, key => if k = key then some v else dictGet rest key

/-- The static transmission-cost table `TRANSMISSION_COSTS`
(src/src/calculator.py lines 13-26), Decimal values as exact rationals. -/
def TRANSMISSION_COSTS : List (String × ℚ) :=
  [("DE-FR", 5/2), ("DE-NL", 3/2), ("DE-DK", 3), ("DE-BE", 2),
   ("FR-NL", 2), ("FR-BE", 3/2), ("FR-DK", 4), ("NL-BE", 1),
   ("NL-DK", 7/2), ("BE-DK", 7/2), ("TEST_DE-TEST_FR", 5/2)]

/-- Model of `get_transmission_cost` (src/src/calculator.py lines 43-51):
try `"{m1}-{m2}"`, then `"{m2}-{m1}"`, default `Decimal("0")`. -/
def get_transmission_cost (market1 market2 : String) : ℚ :=
  match dictGet TRANSMISSION_COSTS (market1 ++ "-" ++ market2) with
  | some v => v
  | none => (dictGet TRANSMISSION_COSTS (market2 ++ "-" ++ market1)).getD 0

/-- A snapshot entry: market code, price, timestamp. -/
abbrev Entry := String × ℚ × ℕ

/-- Model of `itertools.combinations(l, 2)`: every ordered pair `(l[i], l[j])`
with `i < j`, in list order. -/
def combinations2 {α : Type} : List α → List (α × α)
  | [] => []
  | x :: xs => (xs.map fun y => (x, y)) ++ combinations2 xs

/-- The body of the pair loop in `calculate_spreads`
(src/src/calculator.py lines 68-101) for a single pair
`(market1, price1, timestamp1)`, `(market2, price2, timestamp2)`:
returns the appended `Spread` when `net_opportunity > 0`, else nothing. -/
def spreadOfPair (e1 e2 : Entry) : Option Spread :=
  match e1, e2 with
  | (market1, price1, timestamp1), (market2, price2, timestamp2) =>
    let timestamp := max timestamp1 timestamp2
    let hl :=
      if price2 < price1 then (market1, price1, market2, price2)
      else (market2, price2, market1, price1)
    match hl with
    | (high_market, high_price, low_market, low_price) =>
      let spread := high_price - low_price
      let transmission_cost := get_transmission_cost market1 market2
      let net_opportunity := spread - transmission_cost
      if 0 < net_opportunity then
        some { market_pair := low_market ++ "-" ++ high_market
               timestamp := timestamp
               spread := spread
               net_opportunity := net_opportunity
               low_market := low_market
               high_market := high_market
               low_price := low_price
               high_price := high_price }
      else none

/-- Model of `calculate_spreads` (src/src/calculator.py lines 53-103): iterate over
all pairs of markets of the snapshot and keep the profitable ones. -/
def calculate_spreads (prices : List Entry) : List Spread :=
  (combinations2 prices).filterMap fun pr => spreadOfPair pr.1 pr.2

/-- Model of `write_spreads_to_db` (src/src/calculator.py lines 105-124): one plain
`INSERT` per spread, each appending one row to the `spreads` table
(modelled as the list of its rows in insertion order). -/
def write_spreads_to_db (db : List Spread) (spreads : List Spread) : List Spread :=
  spreads.foldl (fun d sp => d ++ [sp]) db

/-- Numeric value of a digit character. -/
def digitVal (c : Char) : ℕ := c.toNat - 48

/-- Value of a digit string read left to right. -/
def digitsVal (l : List Char) : ℕ := l.foldl (fun acc c => 10 * acc + digitVal c) 0

/-- Simplified executable model of Python `Decimal(str)` as used on stream
payload prices: optional sign, decimal digits with at most one point,
at least one digit; any other shape raises (here: `none`). -/
def parseDecimal (s : String) : Option ℚ :=
  let signBody : ℚ × List Char :=
    match s.data with
    | '-' :: rest => (-1, rest)
    | '+' :: rest => (1, rest)
    | rest => (1, rest)
  let body := signBody.2
  if body.all (fun c => c.isDigit || c == '.') && body.count '.' ≤ 1
      && body.any Char.isDigit then
    let intPart := body.takeWhile (fun c => c ≠ '.')
    let fracPart := (body.dropWhile (fun c => c ≠ '.')).drop 1
    some (signBody.1 *
      ((digitsVal intPart : ℚ) + (digitsVal fracPart : ℚ) / (10 : ℚ) ^ fracPart.length))
  else none

/-- Simplified executable model of `datetime.fromisoformat` as used on the
`timestamp` field: requires a `YYYY-MM-DD` digit layout and encodes the
date digits as a number (sub-day precision is abstracted away; every
snapshot claim uses only one timestamp per message). Any other shape
raises (here: `none`). -/
def parseTimestamp (s : String) : Option ℕ :=
  match s.data with
  | y1 :: y2 :: y3 :: y4 :: '-' :: m1 :: m2 :: '-' :: d1 :: d2 :: _ =>
    if ([y1, y2, y3, y4, m1, m2, d1, d2]).all Char.isDigit then
      some (digitsVal [y1, y2, y3, y4, m1, m2, d1, d2])
    else none
  | _ => none

/-- The dict comprehension of `calculate_and_store_spreads_from_redis`
(src/src/calculator.py lines 139-143) on the non-`timestamp` entries:
any `Decimal` failure raises out of the comprehension (here: `none`). -/
def parsePrices : List (String × String) → Option (List (String × ℚ))
  | [] => some []
  | (m, p) :: rest =>
    match parseDecimal p, parsePrices rest with
    | some q, some qs => some ((m, q) :: qs)
    | _, _ => none

/-- The parsing prefix of `calculate_and_store_spreads_from_redis`
(src/src/calculator.py lines 138-143): the timestamp item of `prices_data`
(KeyError when absent), `datetime.fromisoformat` (ValueError when
malformed), then the price comprehension skipping the `timestamp` key.
`none` models an exception escaping the function. -/
def parseSnapshot (data : List (String × String)) : Option (ℕ × List (String × ℚ)) :=
  match dictGet data "timestamp" with
  | none => none
  | some ts =>
    match parseTimestamp ts with
    | none => none
    | some t =>
      match parsePrices (data.filter fun kv => kv.1 ≠ "timestamp") with
      | none => none
      | some prices => some (t, prices)

/-- Attach the single message timestamp to every parsed price, producing the
snapshot shape `calculate_spreads` expects. -/
def toEntries (t : ℕ) (prices : List (String × ℚ)) : List Entry :=
  prices.map fun mp => (mp.1, mp.2, t)

/-- Observable events of one consumer-loop iteration: a Store insert of one
row, an xack of the message, or an exception escaping the iteration. -/
inductive Event where
  | write (row : Spread)
  | ack (msgId : String)
  | crash
deriving DecidableEq

/-- The insert loop of `write_spreads_to_db` under a per-insert success
oracle `ok` (models Store availability): inserts succeed in order until the
first failing one, which raises. -/
def persistEvents (ok : ℕ → Bool) : List Spread → ℕ → List Event
  | [], _ => []
  | sp :: rest, i =>
    if ok i then Event.write sp :: persistEvents ok rest (i + 1)
    else [Event.crash]

/-- Whether every insert of the batch succeeds under oracle `ok`. -/
def persistOk (ok : ℕ → Bool) : List Spread → ℕ → Bool
  | [], _ => true
  | _ :: rest, i => ok i && persistOk ok rest (i + 1)

/-- Event trace of one iteration of the message loop in `calculator_loop`
(src/src/calculator.py lines 201-207) on message `(msgId, data)`:
`calculate_and_store_spreads_from_redis` (parse, empty-prices early return,
calculate, write) followed by `xack` — there is no exception handler inside
the `while` loop, so any exception (parse failure, failed insert) escapes
before the `xack` line is reached. -/
def bodyEvents (ok : ℕ → Bool) (msgId : String) (data : List (String × String)) : List Event :=
  match parseSnapshot data with
  | none => [Event.crash]
  | some (t, prices) =>
    if prices.isEmpty then [Event.ack msgId]
    else
      let ops := calculate_spreads (toEntries t prices)
      persistEvents ok ops 0 ++ (if persistOk ok ops 0 then [Event.ack msgId] else [])

/-- The arguments of the `xgroup_create` call at startup
(src/src/calculator.py line 184). -/
structure XGroupCreateCall where
  stream : String
  group : String
  id : String
  mkstream : Bool
deriving DecidableEq

/-- The group-creation call issued by `calculator_loop`: stream prices,
group calculator_group, id 0, mkstream true. -/
def startupGroupCreate : XGroupCreateCall :=
  { stream := "prices", group := "calculator_group", id := "0", mkstream := true }

/-- The `try/except Exception` guard around group creation
(src/src/calculator.py lines 183-187): whatever the outcome of the call,
the handler swallows the error and control reaches the read loop.
Returns `true` exactly when execution proceeds to the blocking reads. -/
def startupOutcome : Except String Unit → Bool
  | Except.ok _ => true
  | Except.error _ => true

/-! ### Association-list lookup facts -/

theorem dictGet_eq_some_mem {α : Type} {d : List (String × α)} {key : String} {v : α}
    (h : dictGet d key = some v) : (key, v) ∈ d := by
  induction d with
  | nil => exact Option.noConfusion h
  | cons kv rest ih =>
    match kv with
    | (k, w) =>
      simp only [dictGet] at h
      split at h
      · rename_i hk
        cases h
        subst hk
        exact List.mem_cons_self _ _
      · exact List.mem_cons_of_mem _ (ih h)

/-! ### Decomposing a hyphen-joined key

`get_transmission_cost` joins two market codes with `"-"`; to reason about
the lookup for arbitrary codes we characterise every way a concrete key
splits as `a ++ "-" ++ b`. -/

/-- All splits of a character list at an occurrence of `'-'`. -/
def splitsAtDash (k : List Char) : List (List Char × List Char) :=
  (List.range k.length).filterMap fun i =>
    if k[i]? = some '-' then some (k.take i, k.drop (i + 1)) else none

theorem splitsAtDash_spec {x y k : List Char} :
    x ++ '-' :: y = k ↔ (x, y) ∈ splitsAtDash k := by
  constructor
  · intro h
    subst h
    refine List.mem_filterMap.mpr ⟨x.length, List.mem_range.mpr ?_, ?_⟩
    · simp only [List.length_append, List.length_cons]
      omega
    · have hget : (x ++ '-' :: y)[x.length]? = some '-' := by
        rw [List.getElem?_append_right (le_refl x.length)]
        simp
      rw [if_pos hget]
      have htake : (x ++ '-' :: y).take x.length = x := List.take_left x ('-' :: y)
      have hdrop : (x ++ '-' :: y).drop (x.length + 1) = y := by
        have hx : x ++ '-' :: y = (x ++ ['-']) ++ y := by simp
        rw [hx]
        exact List.drop_left' (by simp)
      rw [htake, hdrop]
  · intro h
    obtain ⟨i, hi, hf⟩ := List.mem_filterMap.mp h
    split at hf
    · rename_i hget
      obtain ⟨hlt, hgi⟩ := List.getElem?_eq_some_iff.mp hget
      cases hf
      calc k.take i ++ '-' :: k.drop (i + 1)
          = k.take i ++ k[i] :: k.drop (i + 1) := by rw [hgi]
        _ = k.take i ++ k.drop i := by rw [List.drop_eq_getElem_cons hlt]
        _ = k := List.take_append_drop i k
    · exact Option.noConfusion hf

theorem append_dash_eq_iff (a b k : String) :
    a ++ "-" ++ b = k ↔ (a.data, b.data) ∈ splitsAtDash k.data := by
  rw [String.ext_iff]
  have hd : (a ++ "-" ++ b).data = a.data ++ '-' :: b.data := by
    rw [String.data_append, String.data_append, List.append_assoc]
    rfl
  rw [hd]
  exact splitsAtDash_spec

theorem append_dash_inj (A B k : String) {a b : String}
    (hk : splitsAtDash k.data = [(A.data, B.data)])
    (h : a ++ "-" ++ b = k) : a = A ∧ b = B := by
  have hmem := (append_dash_eq_iff a b k).mp h
  rw [hk, List.mem_singleton, Prod.mk.injEq] at hmem
  exact ⟨String.ext_iff.mpr hmem.1, String.ext_iff.mpr hmem.2⟩

/-- No two market codes are configured in both orderings: if `a ++ "-" ++ b`
is a key of the cost table, `b ++ "-" ++ a` is not. Every key of the table
contains exactly one hyphen, so its split into two codes is unique, and no
reversal of any key is itself a key. -/
theorem not_both_configured {a b : String} {v w : ℚ}
    (h1 : dictGet TRANSMISSION_COSTS (a ++ "-" ++ b) = some v)
    (h2 : dictGet TRANSMISSION_COSTS (b ++ "-" ++ a) = some w) : False := by
  have hm := dictGet_eq_some_mem h1
  simp only [TRANSMISSION_COSTS, List.mem_cons, List.not_mem_nil, or_false] at hm
  rcases hm with h | h | h | h | h | h | h | h | h | h | h
  · obtain ⟨ha, hb⟩ := append_dash_inj "DE" "FR" "DE-FR" (by rfl) (congrArg Prod.fst h)
    subst ha; subst hb
    exact Option.noConfusion
      ((show dictGet TRANSMISSION_COSTS ("FR" ++ "-" ++ "DE") = none from rfl).symm.trans h2)
  · obtain ⟨ha, hb⟩ := append_dash_inj "DE" "NL" "DE-NL" (by rfl) (congrArg Prod.fst h)
    subst ha; subst hb
    exact Option.noConfusion
      ((show dictGet TRANSMISSION_COSTS ("NL" ++ "-" ++ "DE") = none from rfl).symm.trans h2)
  · obtain ⟨ha, hb⟩ := append_dash_inj "DE" "DK" "DE-DK" (by rfl) (congrArg Prod.fst h)
    subst ha; subst hb
    exact Option.noConfusion
      ((show dictGet TRANSMISSION_COSTS ("DK" ++ "-" ++ "DE") = none from rfl).symm.trans h2)
  · obtain ⟨ha, hb⟩ := append_dash_inj "DE" "BE" "DE-BE" (by rfl) (congrArg Prod.fst h)
    subst ha; subst hb
    exact Option.noConfusion
      ((show dictGet TRANSMISSION_COSTS ("BE" ++ "-" ++ "DE") = none from rfl).symm.trans h2)
  · obtain ⟨ha, hb⟩ := append_dash_inj "FR" "NL" "FR-NL" (by rfl) (congrArg Prod.fst h)
    subst ha; subst hb
    exact Option.noConfusion
      ((show dictGet TRANSMISSION_COSTS ("NL" ++ "-" ++ "FR") = none from rfl).symm.trans h2)
  · obtain ⟨ha, hb⟩ := append_dash_inj "FR" "BE" "FR-BE" (by rfl) (congrArg Prod.fst h)
    subst ha; subst hb
    exact Option.noConfusion
      ((show dictGet TRANSMISSION_COSTS ("BE" ++ "-" ++ "FR") = none from rfl).symm.trans h2)
  · obtain ⟨ha, hb⟩ := append_dash_inj "FR" "DK" "FR-DK" (by rfl) (congrArg Prod.fst h)
    subst ha; subst hb
    exact Option.noConfusion
      ((show dictGet TRANSMISSION_COSTS ("DK" ++ "-" ++ "FR") = none from rfl).symm.trans h2)
  · obtain ⟨ha, hb⟩ := append_dash_inj "NL" "BE" "NL-BE" (by rfl) (congrArg Prod.fst h)
    subst ha; subst hb
    exact Option.noConfusion
      ((show dictGet TRANSMISSION_COSTS ("BE" ++ "-" ++ "NL") = none from rfl).symm.trans h2)
  · obtain ⟨ha, hb⟩ := append_dash_inj "NL" "DK" "NL-DK" (by rfl) (congrArg Prod.fst h)
    subst ha; subst hb
    exact Option.noConfusion
      ((show dictGet TRANSMISSION_COSTS ("DK" ++ "-" ++ "NL") = none from rfl).symm.trans h2)
  · obtain ⟨ha, hb⟩ := append_dash_inj "BE" "DK" "BE-DK" (by rfl) (congrArg Prod.fst h)
    subst ha; subst hb
    exact Option.noConfusion
      ((show dictGet TRANSMISSION_COSTS ("DK" ++ "-" ++ "BE") = none from rfl).symm.trans h2)
  · obtain ⟨ha, hb⟩ :=
      append_dash_inj "TEST_DE" "TEST_FR" "TEST_DE-TEST_FR" (by rfl) (congrArg Prod.fst h)
    subst ha; subst hb
    exact Option.noConfusion
      ((show dictGet TRANSMISSION_COSTS ("TEST_FR" ++ "-" ++ "TEST_DE") = none from rfl).symm.trans
        h2)

/-- Symmetry of the transmission-cost lookup, for arbitrary market codes. -/
theorem get_transmission_cost_comm (a b : String) :
    get_transmission_cost a b = get_transmission_cost b a := by
  rcases h1 : dictGet TRANSMISSION_COSTS (a ++ "-" ++ b) with _ | v <;>
    rcases h2 : dictGet TRANSMISSION_COSTS (b ++ "-" ++ a) with _ | w
  · simp [get_transmission_cost, h1, h2]
  · simp [get_transmission_cost, h1, h2]
  · simp [get_transmission_cost, h1, h2]
  · exact (not_both_configured h1 h2).elim

/-- Every configured transmission cost is nonnegative, and the default is 0. -/
theorem get_transmission_cost_nonneg (a b : String) : 0 ≤ get_transmission_cost a b := by
  have hv : ∀ p ∈ TRANSMISSION_COSTS, 0 ≤ p.2 := by
    intro p hp
    fin_cases hp <;> norm_num
  rcases h1 : dictGet TRANSMISSION_COSTS (a ++ "-" ++ b) with _ | v
  · rcases h2 : dictGet TRANSMISSION_COSTS (b ++ "-" ++ a) with _ | w
    · simp [get_transmission_cost, h1, h2]
    · simpa [get_transmission_cost, h1, h2] using hv _ (dictGet_eq_some_mem h2)
  · simpa [get_transmission_cost, h1] using hv _ (dictGet_eq_some_mem h1)

/-! ### Pair enumeration -/

theorem mem_combinations2 {α : Type} {l : List α} {x y : α} :
    (x, y) ∈ combinations2 l ↔ List.Sublist [x, y] l := by
  induction l with
  | nil => simp [combinations2]
  | cons a xs ih =>
    simp only [combinations2, List.mem_append, List.mem_map, Prod.mk.injEq]
    constructor
    · rintro (⟨z, hz, hx, hy⟩ | h)
      · subst hx; subst hy
        exact (List.singleton_sublist.mpr hz).cons₂ _
      · exact (ih.mp h).cons a
    · intro h
      cases h with
      | cons _ h => exact Or.inr (ih.mpr h)
      | cons₂ _ h => exact Or.inl ⟨y, List.singleton_sublist.mp h, rfl, rfl⟩

theorem pair_sublist_of_mem {α : Type} {l : List α} {a b : α}
    (ha : a ∈ l) (hb : b ∈ l) (hne : a ≠ b) : List.Sublist [a, b] l ∨ List.Sublist [b, a] l := by
  induction l with
  | nil => exact absurd ha (List.not_mem_nil a)
  | cons x xs ih =>
    rcases List.mem_cons.mp ha with hax | ha2
    · subst hax
      have hb2 : b ∈ xs := by
        rcases List.mem_cons.mp hb with hbx | hb2
        · exact absurd hbx.symm hne
        · exact hb2
      exact Or.inl ((List.singleton_sublist.mpr hb2).cons₂ a)
    · rcases List.mem_cons.mp hb with hbx | hb2
      · subst hbx
        exact Or.inr ((List.singleton_sublist.mpr ha2).cons₂ b)
      · rcases ih ha2 hb2 with h | h
        · exact Or.inl (h.cons x)
        · exact Or.inr (h.cons x)

/-! ### Analysis of the pair-loop body -/

/-- Everything true of an emitted opportunity, in terms of its source pair. -/
theorem spreadOfPair_some_spec {m1 m2 : String} {p1 p2 : ℚ} {t1 t2 : ℕ} {o : Spread}
    (h : spreadOfPair (m1, p1, t1) (m2, p2, t2) = some o) :
    o.spread = |p1 - p2| ∧
    o.net_opportunity = |p1 - p2| - get_transmission_cost m1 m2 ∧
    o.timestamp = max t1 t2 ∧
    0 < o.net_opportunity ∧
    o.low_price < o.high_price ∧
    o.market_pair = o.low_market ++ "-" ++ o.high_market ∧
    ((o.low_market = m2 ∧ o.high_market = m1 ∧ o.low_price = p2 ∧ o.high_price = p1) ∨
     (o.low_market = m1 ∧ o.high_market = m2 ∧ o.low_price = p1 ∧ o.high_price = p2)) := by
  by_cases hlt : p2 < p1
  · simp only [spreadOfPair, if_pos hlt] at h
    split at h
    · rename_i hnet
      cases h
      have habs : p1 - p2 = |p1 - p2| := (abs_of_pos (by linarith)).symm
      refine ⟨habs, by rw [← habs], rfl, ?_, hlt, rfl, Or.inl ⟨rfl, rfl, rfl, rfl⟩⟩
      simpa using hnet
    · exact Option.noConfusion h
  · simp only [spreadOfPair, if_neg hlt] at h
    split at h
    · rename_i hnet
      cases h
      have hle : p1 ≤ p2 := le_of_not_lt hlt
      have habs : p2 - p1 = |p1 - p2| := by
        rw [abs_sub_comm]
        exact (abs_of_nonneg (by linarith)).symm
      have hcost := get_transmission_cost_nonneg m1 m2
      have hnet' : (0:ℚ) < p2 - p1 - get_transmission_cost m1 m2 := by simpa using hnet
      refine ⟨habs, by rw [← habs], rfl, by simpa using hnet, by linarith, rfl,
        Or.inr ⟨rfl, rfl, rfl, rfl⟩⟩
    · exact Option.noConfusion h

/-- The pair loop emits an opportunity exactly when the absolute price gap
exceeds the transmission cost. -/
theorem spreadOfPair_isSome_iff {m1 m2 : String} {p1 p2 : ℚ} {t1 t2 : ℕ} :
    (∃ o, spreadOfPair (m1, p1, t1) (m2, p2, t2) = some o) ↔
      get_transmission_cost m1 m2 < |p1 - p2| := by
  constructor
  · rintro ⟨o, h⟩
    have hs := spreadOfPair_some_spec h
    have hnet := hs.2.1
    have hpos := hs.2.2.2.1
    rw [hnet] at hpos
    linarith
  · intro hlt
    rcases hcase : spreadOfPair (m1, p1, t1) (m2, p2, t2) with _ | o
    · exfalso
      simp only [spreadOfPair] at hcase
      split at hcase
      · rename_i hp
        split at hcase
        · exact Option.noConfusion hcase
        · rename_i hnot
          rw [abs_of_pos (by linarith : (0:ℚ) < p1 - p2)] at hlt
          exact hnot (by linarith)
      · rename_i hp
        split at hcase
        · exact Option.noConfusion hcase
        · rename_i hnot
          have hle : p1 ≤ p2 := le_of_not_lt hp
          rw [abs_sub_comm, abs_of_nonneg (by linarith : (0:ℚ) ≤ p2 - p1)] at hlt
          exact hnot (by linarith)
    · exact ⟨o, rfl⟩

/-! ### Membership in the calculator output -/

theorem mem_calculate_spreads {s : List Entry} {o : Spread} :
    o ∈ calculate_spreads s ↔
      ∃ e1 e2 : Entry, List.Sublist [e1, e2] s ∧ spreadOfPair e1 e2 = some o := by
  simp only [calculate_spreads, List.mem_filterMap]
  constructor
  · rintro ⟨pr, hpr, h⟩
    exact ⟨pr.1, pr.2, mem_combinations2.mp (by simpa using hpr), h⟩
  · rintro ⟨e1, e2, hsub, h⟩
    exact ⟨(e1, e2), mem_combinations2.mpr hsub, h⟩

/-- With distinct market keys, an output opportunity whose low/high markets
are `{A, B}` must stem from the unique entries of `A` and `B`, and its
numeric fields are determined by their prices and timestamps. -/
theorem mem_roles_spec {s : List Entry}
    (hnd : (s.map fun e => e.1).Nodup)
    {A B : String} {pa pb : ℚ} {ta tb : ℕ}
    (hA : (A, pa, ta) ∈ s) (hB : (B, pb, tb) ∈ s)
    {o : Spread} (ho : o ∈ calculate_spreads s)
    (hrole : (o.low_market = A ∧ o.high_market = B) ∨
             (o.low_market = B ∧ o.high_market = A)) :
    o.spread = |pa - pb| ∧
    o.net_opportunity = |pa - pb| - get_transmission_cost A B ∧
    o.timestamp = max ta tb ∧
    ((o.low_price = pa ∧ o.high_price = pb) ∨ (o.low_price = pb ∧ o.high_price = pa)) := by
  obtain ⟨e1, e2, hsub, hsp⟩ := mem_calculate_spreads.mp ho
  have he1 : e1 ∈ s := hsub.subset (by simp)
  have he2 : e2 ∈ s := hsub.subset (by simp)
  obtain ⟨m1, p1, t1⟩ := e1
  obtain ⟨m2, p2, t2⟩ := e2
  obtain ⟨hspread, hnet, hts, -, -, -, hroles⟩ := spreadOfPair_some_spec hsp
  have hinj := List.inj_on_of_nodup_map hnd
  rcases hroles with ⟨hl, hh, hlp, hhp⟩ | ⟨hl, hh, hlp, hhp⟩ <;>
    rcases hrole with ⟨hla, hhb⟩ | ⟨hlb, hha⟩
  · -- snapshot order (m1, m2) with p2 < p1; roles m2 = A, m1 = B
    obtain ⟨hm2, hp2, ht2⟩ : m2 = A ∧ p2 = pa ∧ t2 = ta := by
      simpa using hinj he2 hA (hl.symm.trans hla)
    obtain ⟨hm1, hp1, ht1⟩ : m1 = B ∧ p1 = pb ∧ t1 = tb := by
      simpa using hinj he1 hB (hh.symm.trans hhb)
    refine ⟨?_, ?_, ?_, Or.inl ⟨hlp.trans hp2, hhp.trans hp1⟩⟩
    · rw [hspread, hp1, hp2, abs_sub_comm]
    · rw [hnet, hp1, hp2, hm1, hm2, abs_sub_comm, get_transmission_cost_comm]
    · rw [hts, ht1, ht2, max_comm]
  · -- roles m2 = B, m1 = A
    obtain ⟨hm2, hp2, ht2⟩ : m2 = B ∧ p2 = pb ∧ t2 = tb := by
      simpa using hinj he2 hB (hl.symm.trans hlb)
    obtain ⟨hm1, hp1, ht1⟩ : m1 = A ∧ p1 = pa ∧ t1 = ta := by
      simpa using hinj he1 hA (hh.symm.trans hha)
    refine ⟨?_, ?_, ?_, Or.inr ⟨hlp.trans hp2, hhp.trans hp1⟩⟩
    · rw [hspread, hp1, hp2]
    · rw [hnet, hp1, hp2, hm1, hm2]
    · rw [hts, ht1, ht2]
  · -- snapshot order (m1, m2) with p1 ≤ p2; roles m1 = A, m2 = B
    obtain ⟨hm1, hp1, ht1⟩ : m1 = A ∧ p1 = pa ∧ t1 = ta := by
      simpa using hinj he1 hA (hl.symm.trans hla)
    obtain ⟨hm2, hp2, ht2⟩ : m2 = B ∧ p2 = pb ∧ t2 = tb := by
      simpa using hinj he2 hB (hh.symm.trans hhb)
    refine ⟨?_, ?_, ?_, Or.inl ⟨hlp.trans hp1, hhp.trans hp2⟩⟩
    · rw [hspread, hp1, hp2]
    · rw [hnet, hp1, hp2, hm1, hm2]
    · rw [hts, ht1, ht2]
  · -- roles m1 = B, m2 = A
    obtain ⟨hm1, hp1, ht1⟩ : m1 = B ∧ p1 = pb ∧ t1 = tb := by
      simpa using hinj he1 hB (hl.symm.trans hlb)
    obtain ⟨hm2, hp2, ht2⟩ : m2 = A ∧ p2 = pa ∧ t2 = ta := by
      simpa using hinj he2 hA (hh.symm.trans hha)
    refine ⟨?_, ?_, ?_, Or.inr ⟨hlp.trans hp1, hhp.trans hp2⟩⟩
    · rw [hspread, hp1, hp2, abs_sub_comm]
    · rw [hnet, hp1, hp2, hm1, hm2, abs_sub_comm, get_transmission_cost_comm]
    · rw [hts, ht1, ht2, max_comm]

/-- Facts true of every output opportunity, with the snapshot entries that
produced it. -/
theorem mem_calculate_spreads_spec {s : List Entry} {o : Spread}
    (ho : o ∈ calculate_spreads s) :
    0 < o.net_opportunity ∧ o.low_price < o.high_price ∧
    o.market_pair = o.low_market ++ "-" ++ o.high_market ∧
    ∃ tl th : ℕ, (o.low_market, o.low_price, tl) ∈ s ∧ (o.high_market, o.high_price, th) ∈ s := by
  obtain ⟨e1, e2, hsub, hsp⟩ := mem_calculate_spreads.mp ho
  have he1 : e1 ∈ s := hsub.subset (by simp)
  have he2 : e2 ∈ s := hsub.subset (by simp)
  obtain ⟨m1, p1, t1⟩ := e1
  obtain ⟨m2, p2, t2⟩ := e2
  obtain ⟨-, -, -, hpos, hlh, hpair, hroles⟩ := spreadOfPair_some_spec hsp
  refine ⟨hpos, hlh, hpair, ?_⟩
  rcases hroles with ⟨hl, hh, hlp, hhp⟩ | ⟨hl, hh, hlp, hhp⟩
  · exact ⟨t2, t1, by rw [hl, hlp]; exact he2, by rw [hh, hhp]; exact he1⟩
  · exact ⟨t1, t2, by rw [hl, hlp]; exact he1, by rw [hh, hhp]; exact he2⟩

/-! ### Claim theorems -/

/-- C1: for every snapshot (distinct market keys, as in a Python dict) and
every pair of distinct markets `A, B` with distinct prices `pa ≠ pb`,
`calculate_spreads` returns an opportunity whose low/high markets are
`{A, B}` iff `|pa - pb| > cost(A, B)`, and any such opportunity has
`net_opportunity = |pa - pb| - cost(A, B)` and `spread = |pa - pb|`. -/
theorem C1_pairwise_opportunity {s : List Entry}
    (hnd : (s.map fun e => e.1).Nodup)
    {A B : String} {pa pb : ℚ} {ta tb : ℕ}
    (hA : (A, pa, ta) ∈ s) (hB : (B, pb, tb) ∈ s)
    (hAB : A ≠ B) (hp : pa ≠ pb) :
    ((∃ o ∈ calculate_spreads s,
        (o.low_market = A ∧ o.high_market = B) ∨ (o.low_market = B ∧ o.high_market = A)) ↔
      get_transmission_cost A B < |pa - pb|) ∧
    ∀ o ∈ calculate_spreads s,
      ((o.low_market = A ∧ o.high_market = B) ∨ (o.low_market = B ∧ o.high_market = A)) →
        o.net_opportunity = |pa - pb| - get_transmission_cost A B ∧ o.spread = |pa - pb| := by
  constructor
  · constructor
    · rintro ⟨o, ho, hrole⟩
      obtain ⟨-, hnet, -, -⟩ := mem_roles_spec hnd hA hB ho hrole
      have hpos := (mem_calculate_spreads_spec ho).1
      rw [hnet] at hpos
      linarith
    · intro hlt
      have hne : ((A, pa, ta) : Entry) ≠ (B, pb, tb) := by
        intro h
        exact hAB (congrArg Prod.fst h)
      rcases pair_sublist_of_mem hA hB hne with hsub | hsub
      · obtain ⟨o, ho⟩ :=
          spreadOfPair_isSome_iff.mpr (show get_transmission_cost A B < |pa - pb| from hlt)
        have homem : o ∈ calculate_spreads s := mem_calculate_spreads.mpr ⟨_, _, hsub, ho⟩
        obtain ⟨-, -, -, -, -, -, hroles⟩ := spreadOfPair_some_spec ho
        refine ⟨o, homem, ?_⟩
        rcases hroles with ⟨hl, hh, -, -⟩ | ⟨hl, hh, -, -⟩
        · exact Or.inr ⟨hl, hh⟩
        · exact Or.inl ⟨hl, hh⟩
      · obtain ⟨o, ho⟩ :=
          spreadOfPair_isSome_iff.mpr
            (show get_transmission_cost B A < |pb - pa| by
              rw [get_transmission_cost_comm, abs_sub_comm]
              exact hlt)
        have homem : o ∈ calculate_spreads s := mem_calculate_spreads.mpr ⟨_, _, hsub, ho⟩
        obtain ⟨-, -, -, -, -, -, hroles⟩ := spreadOfPair_some_spec ho
        refine ⟨o, homem, ?_⟩
        rcases hroles with ⟨hl, hh, -, -⟩ | ⟨hl, hh, -, -⟩
        · exact Or.inl ⟨hl, hh⟩
        · exact Or.inr ⟨hl, hh⟩
  · intro o ho hrole
    obtain ⟨hspread, hnet, -, -⟩ := mem_roles_spec hnd hA hB ho hrole
    exact ⟨hnet, hspread⟩

/-- Witness for C1 at the concrete spec scenario of DE at 60 and FR at 80
(cost 2.50): hypotheses hold and the conclusion follows by applying the
theorem. -/
theorem C1_pairwise_opportunity_witness :
    ("DE" ≠ "FR") ∧ ((60:ℚ) ≠ 80) ∧
    (((∃ o ∈ calculate_spreads [("DE", (60:ℚ), (0:ℕ)), ("FR", 80, 0)],
        (o.low_market = "DE" ∧ o.high_market = "FR") ∨
          (o.low_market = "FR" ∧ o.high_market = "DE")) ↔
      get_transmission_cost "DE" "FR" < |(60:ℚ) - 80|) ∧
    ∀ o ∈ calculate_spreads [("DE", (60:ℚ), (0:ℕ)), ("FR", 80, 0)],
      ((o.low_market = "DE" ∧ o.high_market = "FR") ∨
        (o.low_market = "FR" ∧ o.high_market = "DE")) →
        o.net_opportunity = |(60:ℚ) - 80| - get_transmission_cost "DE" "FR" ∧
          o.spread = |(60:ℚ) - 80|) :=
  ⟨by decide, by norm_num,
    C1_pairwise_opportunity (by decide)
      (List.mem_cons_self _ _)
      (List.mem_cons_of_mem _ (List.mem_cons_self _ _))
      (by decide) (by norm_num)⟩

/-- C5: the transmission-cost lookup is symmetric for arbitrary market
codes (configured or not), and a pair configured in neither ordering costs
exactly 0 rather than raising. -/
theorem C5_cost_symmetric_default_zero (a b : String) :
    get_transmission_cost a b = get_transmission_cost b a ∧
    (dictGet TRANSMISSION_COSTS (a ++ "-" ++ b) = none ∧
        dictGet TRANSMISSION_COSTS (b ++ "-" ++ a) = none →
      get_transmission_cost a b = 0) := by
  refine ⟨get_transmission_cost_comm a b, ?_⟩
  rintro ⟨h1, h2⟩
  simp [get_transmission_cost, h1, h2]

/-- Witness for C5 at the unconfigured pair `("AT", "PL")`. -/
theorem C5_cost_symmetric_default_zero_witness :
    get_transmission_cost "AT" "PL" = get_transmission_cost "PL" "AT" ∧
    get_transmission_cost "AT" "PL" = 0 :=
  ⟨(C5_cost_symmetric_default_zero "AT" "PL").1,
   (C5_cost_symmetric_default_zero "AT" "PL").2 ⟨by rfl, by rfl⟩⟩

/-! ### Counting opportunities per unordered pair -/

theorem countP_filterMap {α β : Type} (f : α → Option β) (p : β → Bool) (l : List α) :
    (l.filterMap f).countP p = l.countP fun a => ((f a).map p).getD false := by
  induction l with
  | nil => rfl
  | cons a l ih =>
    rcases hfa : f a with _ | b
    · rw [List.filterMap_cons_none hfa, List.countP_cons, ih, hfa]
      simp
    · rw [List.filterMap_cons_some hfa, List.countP_cons, List.countP_cons, ih, hfa]
      simp

theorem combinations2_mem_both {α : Type} {l : List α} {pr : α × α}
    (h : pr ∈ combinations2 l) : pr.1 ∈ l ∧ pr.2 ∈ l := by
  have hsub : List.Sublist [pr.1, pr.2] l := mem_combinations2.mp (by simpa using h)
  exact ⟨hsub.subset (by simp), hsub.subset (by simp)⟩

/-- With distinct keys, at most one enumerated pair carries the unordered
key pair `{A, B}`. -/
theorem countP_combinations2_keys {s : List Entry} (hnd : (s.map fun e => e.1).Nodup)
    {A B : String} (hAB : A ≠ B) :
    ((combinations2 s).countP fun pr =>
      (pr.1.1 == A && pr.2.1 == B) || (pr.1.1 == B && pr.2.1 == A)) ≤ 1 := by
  induction s with
  | nil => simp [combinations2]
  | cons e rest ih =>
    rw [List.map_cons] at hnd
    obtain ⟨he, hnd'⟩ := List.nodup_cons.mp hnd
    rw [combinations2, List.countP_append, List.countP_map]
    have hc : ∀ C : String, (rest.countP fun y => y.1 == C) ≤ 1 → True := fun _ _ => trivial
    by_cases heA : e.1 = A
    · have hmap : (rest.countP
          (((fun pr : Entry × Entry =>
            (pr.1.1 == A && pr.2.1 == B) || (pr.1.1 == B && pr.2.1 == A)) ∘ fun y => (e, y)))) =
          rest.countP fun y => y.1 == B := by
        apply List.countP_congr
        intro y _
        simp [Function.comp, heA, hAB]
      have hcount : (rest.countP fun y => y.1 == B) ≤ 1 := by
        have h1 : (rest.countP fun y => y.1 == B) = List.count B (rest.map fun e => e.1) := by
          rw [List.count, List.countP_map]
          rfl
        rw [h1]
        exact List.nodup_iff_count_le_one.mp hnd' B
      have hcomb : ((combinations2 rest).countP fun pr =>
          (pr.1.1 == A && pr.2.1 == B) || (pr.1.1 == B && pr.2.1 == A)) = 0 := by
        rw [List.countP_eq_zero]
        intro pr hpr hkey
        obtain ⟨h1, h2⟩ := combinations2_mem_both hpr
        have hkeys : pr.1.1 = A ∨ pr.2.1 = A := by
          rcases Bool.or_eq_true_iff.mp hkey with hx | hx
          · exact Or.inl (by simpa using (Bool.and_eq_true_iff.mp hx).1)
          · exact Or.inr (by simpa using (Bool.and_eq_true_iff.mp hx).2)
        rcases hkeys with hx | hx
        · exact he (heA ▸ hx ▸ List.mem_map_of_mem (fun e => e.1) h1)
        · exact he (heA ▸ hx ▸ List.mem_map_of_mem (fun e => e.1) h2)
      rw [hmap, hcomb]
      omega
    · by_cases heB : e.1 = B
      · have hmap : (rest.countP
            (((fun pr : Entry × Entry =>
              (pr.1.1 == A && pr.2.1 == B) || (pr.1.1 == B && pr.2.1 == A)) ∘ fun y => (e, y)))) =
            rest.countP fun y => y.1 == A := by
          apply List.countP_congr
          intro y _
          have hBA : B ≠ A := fun h => hAB h.symm
          simp [Function.comp, heB, hBA]
        have hcount : (rest.countP fun y => y.1 == A) ≤ 1 := by
          have h1 : (rest.countP fun y => y.1 == A) = List.count A (rest.map fun e => e.1) := by
            rw [List.count, List.countP_map]
            rfl
          rw [h1]
          exact List.nodup_iff_count_le_one.mp hnd' A
        have hcomb : ((combinations2 rest).countP fun pr =>
            (pr.1.1 == A && pr.2.1 == B) || (pr.1.1 == B && pr.2.1 == A)) = 0 := by
          rw [List.countP_eq_zero]
          intro pr hpr hkey
          obtain ⟨h1, h2⟩ := combinations2_mem_both hpr
          have hkeys : pr.1.1 = B ∨ pr.2.1 = B := by
            rcases Bool.or_eq_true_iff.mp hkey with hx | hx
            · exact Or.inr (by simpa using (Bool.and_eq_true_iff.mp hx).2)
            · exact Or.inl (by simpa using (Bool.and_eq_true_iff.mp hx).1)
          rcases hkeys with hx | hx
          · exact he (heB ▸ hx ▸ List.mem_map_of_mem (fun e => e.1) h1)
          · exact he (heB ▸ hx ▸ List.mem_map_of_mem (fun e => e.1) h2)
        rw [hmap, hcomb]
        omega
      · have hmap : (rest.countP
            (((fun pr : Entry × Entry =>
              (pr.1.1 == A && pr.2.1 == B) || (pr.1.1 == B && pr.2.1 == A)) ∘ fun y => (e, y)))) =
            0 := by
          rw [List.countP_eq_zero]
          intro y _ hkey
          simp [Function.comp, heA, heB] at hkey
        rw [hmap]
        simpa using ih hnd'

/-- C4: per snapshot (distinct market keys), each unordered pair of
distinct markets contributes at most one opportunity, a pair with equal
prices contributes none, and every emitted opportunity has strictly
`low_price < high_price` with `market_pair = "{low}-{high}"`, low/high
chosen by price in that snapshot. -/
theorem C4_per_pair_invariants {s : List Entry} (hnd : (s.map fun e => e.1).Nodup) :
    (∀ A B : String, A ≠ B →
      ((calculate_spreads s).countP fun o =>
        (o.low_market == A && o.high_market == B) ||
          (o.low_market == B && o.high_market == A)) ≤ 1) ∧
    (∀ (A B : String) (p : ℚ) (ta tb : ℕ), (A, p, ta) ∈ s → (B, p, tb) ∈ s →
      ¬∃ o ∈ calculate_spreads s,
          (o.low_market = A ∧ o.high_market = B) ∨ (o.low_market = B ∧ o.high_market = A)) ∧
    ∀ o ∈ calculate_spreads s,
      o.low_price < o.high_price ∧
      o.market_pair = o.low_market ++ "-" ++ o.high_market ∧
      ∃ tl th : ℕ, (o.low_market, o.low_price, tl) ∈ s ∧
        (o.high_market, o.high_price, th) ∈ s := by
  refine ⟨?_, ?_, ?_⟩
  · intro A B hAB
    rw [calculate_spreads, countP_filterMap]
    refine le_trans (List.countP_mono_left ?_) (countP_combinations2_keys hnd hAB)
    intro pr hpr hx
    obtain ⟨⟨m1, p1, t1⟩, ⟨m2, p2, t2⟩⟩ := pr
    rcases hsp : spreadOfPair (m1, p1, t1) (m2, p2, t2) with _ | o
    · rw [hsp] at hx
      simp at hx
    · rw [hsp] at hx
      have hx' : (o.low_market = A ∧ o.high_market = B) ∨
          (o.low_market = B ∧ o.high_market = A) := by
        simpa using hx
      obtain ⟨-, -, -, -, -, -, hroles⟩ := spreadOfPair_some_spec hsp
      simp only [Bool.or_eq_true, Bool.and_eq_true, beq_iff_eq]
      rcases hroles with ⟨hl, hh, -, -⟩ | ⟨hl, hh, -, -⟩ <;>
        rcases hx' with ⟨h1, h2⟩ | ⟨h1, h2⟩
      · exact Or.inr ⟨hh.symm.trans h2, hl.symm.trans h1⟩
      · exact Or.inl ⟨hh.symm.trans h2, hl.symm.trans h1⟩
      · exact Or.inl ⟨hl.symm.trans h1, hh.symm.trans h2⟩
      · exact Or.inr ⟨hl.symm.trans h1, hh.symm.trans h2⟩
  · rintro A B p ta tb hA hB ⟨o, ho, hrole⟩
    obtain ⟨-, hnet, -, -⟩ := mem_roles_spec hnd hA hB ho hrole
    have hpos := (mem_calculate_spreads_spec ho).1
    have hc := get_transmission_cost_nonneg A B
    rw [hnet, sub_self, abs_zero] at hpos
    linarith
  · intro o ho
    obtain ⟨-, h2, h3, h4⟩ := mem_calculate_spreads_spec ho
    exact ⟨h2, h3, h4⟩

/-- Witness for C4 at the snapshot `{DE: 60, FR: 80}`. -/
theorem C4_per_pair_invariants_witness :
    ((([("DE", (60:ℚ), (0:ℕ)), ("FR", 80, 0)]).map fun e => e.1).Nodup) ∧
    ((∀ A B : String, A ≠ B →
      ((calculate_spreads [("DE", (60:ℚ), (0:ℕ)), ("FR", 80, 0)]).countP fun o =>
        (o.low_market == A && o.high_market == B) ||
          (o.low_market == B && o.high_market == A)) ≤ 1) ∧
    (∀ (A B : String) (p : ℚ) (ta tb : ℕ),
      (A, p, ta) ∈ [("DE", (60:ℚ), (0:ℕ)), ("FR", 80, 0)] →
      (B, p, tb) ∈ [("DE", (60:ℚ), (0:ℕ)), ("FR", 80, 0)] →
      ¬∃ o ∈ calculate_spreads [("DE", (60:ℚ), (0:ℕ)), ("FR", 80, 0)],
          (o.low_market = A ∧ o.high_market = B) ∨ (o.low_market = B ∧ o.high_market = A)) ∧
    ∀ o ∈ calculate_spreads [("DE", (60:ℚ), (0:ℕ)), ("FR", 80, 0)],
      o.low_price < o.high_price ∧
      o.market_pair = o.low_market ++ "-" ++ o.high_market ∧
      ∃ tl th : ℕ, (o.low_market, o.low_price, tl) ∈ [("DE", (60:ℚ), (0:ℕ)), ("FR", 80, 0)] ∧
        (o.high_market, o.high_price, th) ∈ [("DE", (60:ℚ), (0:ℕ)), ("FR", 80, 0)]) :=
  ⟨by decide, C4_per_pair_invariants (by decide)⟩

/-- C6: an opportunity emitted for the pair `{A, B}` carries the maximum of
the timestamps of the two entries. -/
theorem C6_timestamp_is_max {s : List Entry} (hnd : (s.map fun e => e.1).Nodup)
    {A B : String} {pa pb : ℚ} {ta tb : ℕ}
    (hA : (A, pa, ta) ∈ s) (hB : (B, pb, tb) ∈ s) :
    ∀ o ∈ calculate_spreads s,
      ((o.low_market = A ∧ o.high_market = B) ∨ (o.low_market = B ∧ o.high_market = A)) →
        o.timestamp = max ta tb := by
  intro o ho hrole
  exact (mem_roles_spec hnd hA hB ho hrole).2.2.1

/-- Witness for C6 at the snapshot `{DE: (60, t=1), FR: (80, t=5)}`. -/
theorem C6_timestamp_is_max_witness :
    ((([("DE", (60:ℚ), (1:ℕ)), ("FR", 80, 5)]).map fun e => e.1).Nodup) ∧
    ∀ o ∈ calculate_spreads [("DE", (60:ℚ), (1:ℕ)), ("FR", 80, 5)],
      ((o.low_market = "DE" ∧ o.high_market = "FR") ∨
        (o.low_market = "FR" ∧ o.high_market = "DE")) →
        o.timestamp = max 1 5 :=
  ⟨by decide,
   C6_timestamp_is_max (by decide)
     (List.mem_cons_self _ _)
     (List.mem_cons_of_mem _ (List.mem_cons_self _ _))⟩

/-! ### Consumer-loop event traces -/

theorem persistEvents_of_ok {ok : ℕ → Bool} {l : List Spread} {i : ℕ}
    (h : persistOk ok l i = true) : persistEvents ok l i = l.map Event.write := by
  induction l generalizing i with
  | nil => rfl
  | cons sp rest ih =>
    simp only [persistOk, Bool.and_eq_true] at h
    simp only [persistEvents, if_pos h.1, List.map_cons]
    rw [ih h.2]

theorem ack_not_mem_persistEvents {ok : ℕ → Bool} {l : List Spread} {i : ℕ} {m : String} :
    Event.ack m ∉ persistEvents ok l i := by
  induction l generalizing i with
  | nil => simp [persistEvents]
  | cons sp rest ih =>
    simp only [persistEvents]
    split
    · intro h
      rcases List.mem_cons.mp h with h | h
      · exact Event.noConfusion h
      · exact ih h
    · simp

/-- C2: whenever an iteration of the consumer loop acknowledges a message,
the message parsed, and the trace of the iteration is exactly all Store inserts
of the derived opportunities followed by the single `xack` — so the `xack`
happens only after every insert completed successfully. -/
theorem C2_ack_only_after_persist {ok : ℕ → Bool} {msgId : String}
    {data : List (String × String)}
    (h : Event.ack msgId ∈ bodyEvents ok msgId data) :
    ∃ (t : ℕ) (prices : List (String × ℚ)), parseSnapshot data = some (t, prices) ∧
      bodyEvents ok msgId data =
        (calculate_spreads (toEntries t prices)).map Event.write ++ [Event.ack msgId] := by
  rcases hps : parseSnapshot data with _ | ⟨t, prices⟩
  · simp only [bodyEvents, hps] at h
    rcases List.mem_singleton.mp h with h
    exact Event.noConfusion h
  · by_cases hemp : prices.isEmpty
    · refine ⟨t, prices, rfl, ?_⟩
      have hpe : prices = [] := List.isEmpty_iff.mp hemp
      simp only [bodyEvents, hps, if_pos hemp, hpe]
      rfl
    · refine ⟨t, prices, rfl, ?_⟩
      simp only [bodyEvents, hps, if_neg hemp] at h ⊢
      by_cases hok : persistOk ok (calculate_spreads (toEntries t prices)) 0 = true
      · rw [if_pos hok, persistEvents_of_ok hok]
      · rw [if_neg hok, List.append_nil] at h
        exact absurd h ack_not_mem_persistEvents

/-- Witness for C2: a well-formed two-market message under an always-up
Store is acknowledged, and its trace is write-then-ack. -/
theorem C2_ack_only_after_persist_witness :
    Event.ack "1-0" ∈ bodyEvents (fun _ => true) "1-0"
      [("timestamp", "2024-01-04T10:00:00"), ("DE", "60.00"), ("FR", "80.00")] ∧
    ∃ (t : ℕ) (prices : List (String × ℚ)),
      parseSnapshot [("timestamp", "2024-01-04T10:00:00"), ("DE", "60.00"), ("FR", "80.00")] =
        some (t, prices) ∧
      bodyEvents (fun _ => true) "1-0"
          [("timestamp", "2024-01-04T10:00:00"), ("DE", "60.00"), ("FR", "80.00")] =
        (calculate_spreads (toEntries t prices)).map Event.write ++ [Event.ack "1-0"] := by
  have hparse : parseSnapshot
      [("timestamp", "2024-01-04T10:00:00"), ("DE", "60.00"), ("FR", "80.00")] =
        some (20240104, [("DE", (60:ℚ)), ("FR", 80)]) := by
    simp [parseSnapshot, dictGet, parseTimestamp, parsePrices, parseDecimal, digitsVal, digitVal]
  have hcost : get_transmission_cost "DE" "FR" = 5/2 := by rfl
  have hpair : spreadOfPair ("DE", (60:ℚ), (20240104:ℕ)) ("FR", 80, 20240104) =
      some { market_pair := "DE-FR", timestamp := 20240104, spread := 20,
             net_opportunity := 35/2, low_market := "DE", high_market := "FR",
             low_price := 60, high_price := 80 } := by
    norm_num [spreadOfPair, hcost]
    rfl
  have hcomb : combinations2 (toEntries 20240104 [("DE", (60:ℚ)), ("FR", 80)]) =
      [(("DE", (60:ℚ), (20240104:ℕ)), ("FR", 80, 20240104))] := rfl
  have hops : calculate_spreads (toEntries 20240104 [("DE", (60:ℚ)), ("FR", 80)]) =
      [{ market_pair := "DE-FR", timestamp := 20240104, spread := 20,
         net_opportunity := 35/2, low_market := "DE", high_market := "FR",
         low_price := 60, high_price := 80 }] := by
    simp only [calculate_spreads, hcomb, List.filterMap_cons, hpair, List.filterMap_nil]
  have hmem : Event.ack "1-0" ∈ bodyEvents (fun _ => true) "1-0"
      [("timestamp", "2024-01-04T10:00:00"), ("DE", "60.00"), ("FR", "80.00")] := by
    simp only [bodyEvents, hparse, hops]
    simp [persistEvents, persistOk]
  exact ⟨hmem, C2_ack_only_after_persist hmem⟩

/-- C3 counterexample: a message with no `timestamp` key (a malformed
snapshot) makes the loop iteration raise: the trace is a crash, and the
message is never acknowledged — the claim that it is acknowledged and the
loop continues is false on the code. -/
theorem C3_counterexample_crash :
    bodyEvents (fun _ => true) "1-0" [("DE", "60.00")] = [Event.crash] ∧
    Event.ack "1-0" ∉ bodyEvents (fun _ => true) "1-0" [("DE", "60.00")] := by
  constructor
  · rfl
  · rw [show bodyEvents (fun _ => true) "1-0" [("DE", "60.00")] = [Event.crash] from rfl]
    intro h
    rcases List.mem_singleton.mp h with h
    exact Event.noConfusion h

/-- C3 amended: a message whose payload fails to parse makes the exception
escape the iteration (no handler inside the read loop): the trace is a
single crash and the message is not acknowledged. -/
theorem C3_amended_parse_failure_crashes {ok : ℕ → Bool} {msgId : String}
    {data : List (String × String)}
    (h : parseSnapshot data = none) :
    bodyEvents ok msgId data = [Event.crash] ∧
    Event.ack msgId ∉ bodyEvents ok msgId data := by
  have hb : bodyEvents ok msgId data = [Event.crash] := by
    simp only [bodyEvents, h]
  refine ⟨hb, ?_⟩
  rw [hb]
  intro hmem
  rcases List.mem_singleton.mp hmem with hmem
  exact Event.noConfusion hmem

/-- Witness for the amended C3 at the payload `{DE: "60.00"}` (missing
`timestamp`). -/
theorem C3_amended_parse_failure_crashes_witness :
    parseSnapshot [("DE", "60.00")] = none ∧
    (bodyEvents (fun _ => true) "42-0" [("DE", "60.00")] = [Event.crash] ∧
      Event.ack "42-0" ∉ bodyEvents (fun _ => true) "42-0" [("DE", "60.00")]) :=
  ⟨rfl, C3_amended_parse_failure_crashes rfl⟩

/-- C9: a message with a parseable timestamp and no market keys parses to
an empty snapshot; the iteration writes nothing, returns normally, and the
message is still acknowledged. -/
theorem C9_no_markets_still_acked {ok : ℕ → Bool} {msgId ts : String}
    {data : List (String × String)} {t : ℕ}
    (hts : dictGet data "timestamp" = some ts)
    (hpt : parseTimestamp ts = some t)
    (hmk : data.filter (fun kv => kv.1 ≠ "timestamp") = []) :
    parseSnapshot data = some (t, []) ∧
    bodyEvents ok msgId data = [Event.ack msgId] := by
  have hps : parseSnapshot data = some (t, []) := by
    simp only [parseSnapshot, hts, hpt, hmk, parsePrices]
  refine ⟨hps, ?_⟩
  simp only [bodyEvents, hps]
  rfl

/-- Witness for C9 at the payload holding only a timestamp. -/
theorem C9_no_markets_still_acked_witness :
    dictGet [("timestamp", "2024-01-04T10:00:00")] "timestamp" =
      some "2024-01-04T10:00:00" ∧
    parseTimestamp "2024-01-04T10:00:00" = some 20240104 ∧
    (parseSnapshot [("timestamp", "2024-01-04T10:00:00")] = some (20240104, []) ∧
      bodyEvents (fun _ => true) "7-0" [("timestamp", "2024-01-04T10:00:00")] =
        [Event.ack "7-0"]) :=
  ⟨rfl, rfl, C9_no_markets_still_acked rfl rfl rfl⟩

/-- C7: the startup call declares the consumer group on stream `prices`
with id 0 (start of backlog) and `mkstream` (create if absent), and a
duplicate-group error is swallowed so startup continues to the read loop. -/
theorem C7_startup_group_declaration :
    startupGroupCreate.stream = "prices" ∧
    startupGroupCreate.group = "calculator_group" ∧
    startupGroupCreate.id = "0" ∧
    startupGroupCreate.mkstream = true ∧
    startupOutcome (Except.error "BUSYGROUP Consumer Group name already exists") = true :=
  ⟨rfl, rfl, rfl, rfl, rfl⟩

/-- C10: every exception from consumer-group creation — not only the
duplicate-group one — is caught by the bare `except Exception` handler and
execution proceeds to the blocking reads. -/
theorem C10_any_startup_error_swallowed :
    ∀ e : String, startupOutcome (Except.error e) = true := fun _ => rfl

/-- Each `INSERT` appends one row, so a batch write appends the batch. -/
theorem write_spreads_to_db_eq_append (db spreads : List Spread) :
    write_spreads_to_db db spreads = db ++ spreads := by
  induction spreads generalizing db with
  | nil => simp [write_spreads_to_db]
  | cons sp rest ih =>
    show List.foldl _ (db ++ [sp]) rest = db ++ sp :: rest
    have h := ih (db ++ [sp])
    simp only [write_spreads_to_db] at h
    rw [h, List.append_assoc]
    rfl

/-- C8: processing the same snapshot twice is deterministic (equal
opportunity lists, field by field, since `Spread` holds exactly the business
fields) and not deduplicated: the second run appends a second identical
batch of rows via plain inserts. -/
theorem C8_redelivery_duplicates (prices : List Entry) (db : List Spread) :
    calculate_spreads prices = calculate_spreads prices ∧
    write_spreads_to_db (write_spreads_to_db db (calculate_spreads prices))
        (calculate_spreads prices) =
      db ++ calculate_spreads prices ++ calculate_spreads prices ∧
    (write_spreads_to_db (write_spreads_to_db db (calculate_spreads prices))
        (calculate_spreads prices)).length =
      db.length + 2 * (calculate_spreads prices).length := by
  refine ⟨rfl, ?_, ?_⟩
  · rw [write_spreads_to_db_eq_append, write_spreads_to_db_eq_append]
  · rw [write_spreads_to_db_eq_append, write_spreads_to_db_eq_append]
    simp [List.length_append]
    ring

end InTheGrid
